import Mathlib

/-!
Verification of the VQ-VAE model in `recognition/s4699389-VQVAE/modules.py`.

The core of the program is `VectorQuantizer.forward`.  Its tensor
computations are embedded here over exact rationals (`ℚ`), at the level the
code itself works at after its layout operations: the `permute`/`view`
calls on lines 30–34 are bijective reinterpretations of the Feature Grid as
a Flattened Vector Set of `N = B·H·W` query vectors of dimension `D`, so
the quantizer is modelled as functions on a list of `N` rows (`List Vec`)
against a codebook of `K` rows (the `nn.Embedding` weight matrix).

Shape behaviour of the convolutional encoder/decoder pipeline is embedded
by the standard output-size arithmetic of `nn.Conv2d` /
`nn.ConvTranspose2d` (stride `s`, kernel `k`, padding `p`, dilation 1,
output_padding 0):  `conv: (w + 2p − k) ⌊/⌋ s + 1`,
`convT: (w − 1)·s + k − 2p`.  Value-level semantics of the stride-1
convolutions used by the `Residual` block are embedded directly.
-/

namespace VQ

/-- A `D`-dimensional vector: one row of the Flattened Vector Set or of the
codebook weight matrix. -/
abbrev Vec := List ℚ

/-- Dot product of two rows, as computed by `torch.matmul` entries. -/
def dot (u v : Vec) : ℚ := (List.zipWith (· * ·) u v).sum

/-- Squared Euclidean norm: `torch.sum(x ** 2, dim=1)` for one row. -/
def sqNorm (u : Vec) : ℚ := (u.map (fun x => x ^ 2)).sum

/-- Squared Euclidean distance `‖q − e‖²` (the mathematical quantity the
spec names; the code computes it in expanded form, see `distExpanded`). -/
def sqDist (q e : Vec) : ℚ := ((List.zipWith (· - ·) q e).map (fun x => x ^ 2)).sum

/-- One entry of the distance matrix of `modules.py` lines 37–39:
`sum(flat_input ** 2) + sum(weight ** 2) − 2 * matmul(flat_input, weight.t())`. -/
def distExpanded (q e : Vec) : ℚ := sqNorm q + sqNorm e - 2 * dot q e

/-- Row `i` of the `N×K` distance matrix: distances from query `q` to every
codebook row (lines 37–39). -/
def rowDistances (codebook : List Vec) (q : Vec) : List ℚ :=
  codebook.map (fun e => distExpanded q e)

/-- The full `N×K` distance matrix (lines 37–39). -/
def distanceMatrix (flat codebook : List Vec) : List (List ℚ) :=
  flat.map (rowDistances codebook)

/-- Minimum of a list (the value `torch.argmin` selects); `0` on `[]`,
where `torch.argmin` would raise instead. -/
def listMin : List ℚ → ℚ
  | [] => 0
  | [x] => x
  | x :: y :: ys => min x (listMin (y :: ys))

/-- Embeds `torch.argmin` along one row: the index of the first minimal value
(PyTorch documents that with several minimal values the index of the first
is returned).  `0` on `[]`, where `torch.argmin` would raise instead. -/
def argminList : List ℚ → Nat
  | [] => 0
  | [_] => 0
  | x :: y :: ys => if x ≤ listMin (y :: ys) then 0 else argminList (y :: ys) + 1

/-- The Assignment of one query: `torch.argmin(distances, dim=1)` restricted
to the row of query `q` (line 42). -/
def assignmentOf (codebook : List Vec) (q : Vec) : Nat :=
  argminList (rowDistances codebook q)

/-- Embeds `encoding_indices` (line 42): per-row argmin of the distance matrix. -/
def encodingIndicesOf (flat codebook : List Vec) : List Nat :=
  (distanceMatrix flat codebook).map argminList

/-- One row of the One-Hot Encoding as the code builds it (lines 43–44):
a row of `torch.zeros(_, K)` after `scatter_(1, idx, 1)` writes a `1` at
column `idx`. -/
def scatterRow (K idx : Nat) : List ℚ :=
  (List.replicate K (0 : ℚ)).set idx 1

/-- Embeds `encodings` (lines 43–44): one scatter-built one-hot row per query. -/
def encodingsOf (flat codebook : List Vec) : List (List ℚ) :=
  (encodingIndicesOf flat codebook).map (scatterRow codebook.length)

/-- One row of `torch.matmul(encodings, self.embedding.weight)` (line 47):
entry `d` is `Σ_k row[k] · codebook[k][d]`. -/
def matVec (D : Nat) (row : List ℚ) (codebook : List Vec) : Vec :=
  (List.range D).map (fun d => (List.zipWith (fun c v => c * v.getD d 0) row codebook).sum)

/-- The Quantized Grid at the flattened level (line 47): the gather of
codebook rows implemented as a matrix product with the one-hot matrix. -/
def quantizedOf (D : Nat) (flat codebook : List Vec) : List Vec :=
  (encodingsOf flat codebook).map (fun row => matVec D row codebook)

/-- Forward-value semantics of `Tensor.detach()`: the value is unchanged
(only gradient flow, outside this value-level model, differs). -/
def detach (x : ℚ) : ℚ := x

/-- The map `detach` applied to a whole (flattened) tensor. -/
def detachT (l : List ℚ) : List ℚ := l.map detach

/-- Sum of squared differences of two flattened tensors. -/
def sqErrSum (a b : List ℚ) : ℚ :=
  (List.zipWith (fun x y => (x - y) ^ 2) a b).sum

/-- Embeds `F.mse_loss(a, b)`: mean of squared elementwise differences. -/
def mseLoss (a b : List ℚ) : ℚ := sqErrSum a b / (a.length : ℚ)

/-- Embeds `e_latent_loss = F.mse_loss(quantized.detach(), inputs)` (line 50). -/
def eLatentLoss (quantized inputs : List ℚ) : ℚ :=
  mseLoss (detachT quantized) inputs

/-- Embeds `q_latent_loss = F.mse_loss(quantized, inputs.detach())` (line 51). -/
def qLatentLoss (quantized inputs : List ℚ) : ℚ :=
  mseLoss quantized (detachT inputs)

/-- Embeds `loss = q_latent_loss + self.commitment_loss * e_latent_loss` (line 52). -/
def vqLoss (beta : ℚ) (quantized inputs : List ℚ) : ℚ :=
  qLatentLoss quantized inputs + beta * eLatentLoss quantized inputs

/-- The straight-through output on one row (line 54):
`quantized = inputs + (quantized - inputs).detach()`. -/
def straightThrough (inputs quantized : List ℚ) : List ℚ :=
  List.zipWith (fun x q => x + detach (q - x)) inputs quantized

/-- Straight-through estimator applied row by row to the flattened grids. -/
def straightThroughRows (inputs quantized : List Vec) : List Vec :=
  List.zipWith straightThrough inputs quantized

/-- Modelled from the spec (§9, design note): the pure construction of one
One-Hot row — row `i` has entry `1` at column `Assignment[i]` and `0`
elsewhere — stated as the indicator function over the `K` columns.  This is
the comparison definition for the refinement claim about the in-place
`scatter_`. -/
def oneHotRow (K idx : Nat) : List ℚ :=
  (List.range K).map (fun j => if j = idx then (1 : ℚ) else 0)

/-! ### Helper lemmas on `listMin` and `argminList` -/

theorem listMin_cons (x : ℚ) (xs : List ℚ) (h : xs ≠ []) :
    listMin (x :: xs) = min x (listMin xs) := by
  cases xs with
  | nil => exact absurd rfl h
  | cons y ys => rfl

theorem argminList_lt : ∀ (l : List ℚ), l ≠ [] → argminList l < l.length
  | [x], _ => by simp [argminList]
  | x :: y :: ys, _ => by
    by_cases h : x ≤ listMin (y :: ys)
    · simp [argminList, h]
    · have ih := argminList_lt (y :: ys) (by simp)
      simp only [argminList, h, if_false, List.length_cons] at *
      omega

theorem getD_argminList : ∀ (l : List ℚ), l ≠ [] → l.getD (argminList l) 0 = listMin l
  | [x], _ => by simp [argminList, listMin]
  | x :: y :: ys, _ => by
    by_cases h : x ≤ listMin (y :: ys)
    · simp [argminList, h, listMin_cons, min_eq_left h]
    · have ih := getD_argminList (y :: ys) (by simp)
      have hlt : listMin (y :: ys) < x := not_le.mp h
      simp only [argminList, h, if_false, List.getD_cons_succ, ih,
        listMin_cons x (y :: ys) (by simp), min_eq_right hlt.le]

theorem listMin_le_getD : ∀ (l : List ℚ) (k : Nat), k < l.length → listMin l ≤ l.getD k 0
  | [x], 0, _ => le_refl x
  | x :: y :: ys, 0, _ => by
    simp only [listMin_cons x (y :: ys) (by simp), List.getD_cons_zero]
    exact min_le_left x (listMin (y :: ys))
  | x :: y :: ys, k + 1, hk => by
    have ih := listMin_le_getD (y :: ys) k (Nat.lt_of_succ_lt_succ hk)
    calc listMin (x :: y :: ys) ≤ listMin (y :: ys) := by
          rw [listMin_cons x (y :: ys) (by simp)]
          exact min_le_right x (listMin (y :: ys))
      _ ≤ (y :: ys).getD k 0 := ih

/-! ### The matmul gather -/

theorem zipWith_replicate_zero_sum :
    ∀ (cb : List Vec) (d n : Nat),
      (List.zipWith (fun c v => c * v.getD d 0) (List.replicate n (0 : ℚ)) cb).sum = 0
  | [], d, n => by rw [List.zipWith_nil_right, List.sum_nil]
  | v :: rest, d, 0 => by rw [List.replicate_zero, List.zipWith_nil_left, List.sum_nil]
  | v :: rest, d, n + 1 => by
    have ih := zipWith_replicate_zero_sum rest d n
    rw [List.replicate_succ, List.zipWith_cons_cons, List.sum_cons, ih]
    ring

theorem scatter_gather_entry :
    ∀ (cb : List Vec) (idx d : Nat), idx < cb.length →
      (List.zipWith (fun c v => c * v.getD d 0) (scatterRow cb.length idx) cb).sum
        = (cb.getD idx []).getD d 0
  | v :: rest, 0, d, _ => by
    have hz := zipWith_replicate_zero_sum rest d rest.length
    show (List.zipWith _ (scatterRow (rest.length + 1) 0) (v :: rest)).sum = _
    rw [show scatterRow (rest.length + 1) 0 = 1 :: List.replicate rest.length 0 by
      rw [scatterRow, List.replicate_succ, List.set_cons_zero]]
    rw [List.zipWith_cons_cons, List.sum_cons, hz, List.getD_cons_zero]
    ring
  | v :: rest, idx + 1, d, h => by
    have ih := scatter_gather_entry rest idx d (Nat.lt_of_succ_lt_succ h)
    show (List.zipWith _ (scatterRow (rest.length + 1) (idx + 1)) (v :: rest)).sum = _
    rw [show scatterRow (rest.length + 1) (idx + 1) = 0 :: scatterRow rest.length idx by
      rw [scatterRow, scatterRow, List.replicate_succ, List.set_cons_succ]]
    rw [List.zipWith_cons_cons, List.sum_cons, ih, List.getD_cons_succ]
    ring

theorem map_getD_range (v : List ℚ) (D : Nat) (h : v.length = D) :
    (List.range D).map (fun d => v.getD d 0) = v := by
  apply List.ext_getElem
  · simp [h]
  · intro i h1 h2
    simp only [List.getElem_map, List.getElem_range]
    exact List.getD_eq_getElem v 0 h2

theorem length_matVec (D : Nat) (row : List ℚ) (cb : List Vec) :
    (matVec D row cb).length = D := by
  simp [matVec]

theorem matVec_scatterRow (D : Nat) (cb : List Vec) (idx : Nat)
    (h : idx < cb.length) (hlen : (cb.getD idx []).length = D) :
    matVec D (scatterRow cb.length idx) cb = cb.getD idx [] := by
  unfold matVec
  have : ∀ d : Nat,
      (List.zipWith (fun c v => c * v.getD d 0) (scatterRow cb.length idx) cb).sum
        = (cb.getD idx []).getD d 0 := fun d => scatter_gather_entry cb idx d h
  simp only [this]
  exact map_getD_range _ D hlen

/-! ### The straight-through estimator -/

theorem straightThrough_eq :
    ∀ (x q : List ℚ), x.length = q.length → straightThrough x q = q
  | [], [], _ => rfl
  | [], _ :: _, h => by simp at h
  | _ :: _, [], h => by simp at h
  | a :: as, b :: bs, h => by
    have ih := straightThrough_eq as bs (by simpa using h)
    simp only [straightThrough, List.zipWith_cons_cons, detach] at *
    rw [ih]
    ring_nf

/-! ### Loss helpers -/

theorem detachT_eq (l : List ℚ) : detachT l = l := by
  rw [detachT, show detach = id from rfl, List.map_id]

theorem sqErrSum_nonneg : ∀ (a b : List ℚ), 0 ≤ sqErrSum a b
  | [], _ => by simp [sqErrSum]
  | _ :: _, [] => by simp [sqErrSum]
  | x :: xs, y :: ys => by
    have ih := sqErrSum_nonneg xs ys
    simp only [sqErrSum, List.zipWith_cons_cons, List.sum_cons] at *
    have hsq : (0 : ℚ) ≤ (x - y) ^ 2 := sq_nonneg _
    linarith

theorem mseLoss_nonneg (a b : List ℚ) : 0 ≤ mseLoss a b :=
  div_nonneg (sqErrSum_nonneg a b) (Nat.cast_nonneg _)

theorem eLatentLoss_eq_mseLoss (q inp : List ℚ) : eLatentLoss q inp = mseLoss q inp := by
  simp [eLatentLoss, detachT_eq]

theorem qLatentLoss_eq_mseLoss (q inp : List ℚ) : qLatentLoss q inp = mseLoss q inp := by
  simp [qLatentLoss, detachT_eq]

/-! ### Map fusion through the quantizer pipeline -/

theorem encodingIndicesOf_eq_map (flat codebook : List Vec) :
    encodingIndicesOf flat codebook = flat.map (assignmentOf codebook) := by
  simp [encodingIndicesOf, distanceMatrix, assignmentOf, List.map_map, Function.comp]

theorem encodingsOf_eq_map (flat codebook : List Vec) :
    encodingsOf flat codebook
      = flat.map (fun q => scatterRow codebook.length (assignmentOf codebook q)) := by
  simp [encodingsOf, encodingIndicesOf_eq_map, List.map_map, Function.comp]

theorem quantizedOf_eq_map (D : Nat) (flat codebook : List Vec) :
    quantizedOf D flat codebook
      = flat.map (fun q =>
          matVec D (scatterRow codebook.length (assignmentOf codebook q)) codebook) := by
  simp [quantizedOf, encodingsOf_eq_map, List.map_map, Function.comp]

theorem straightThroughRows_map (g : Vec → Vec) :
    ∀ (flat : List Vec), (∀ q ∈ flat, straightThrough q (g q) = g q) →
      straightThroughRows flat (flat.map g) = flat.map g
  | [], _ => rfl
  | q :: rest, h => by
    have ih := straightThroughRows_map g rest (fun p hp => h p (List.mem_cons_of_mem _ hp))
    simp only [List.map_cons, straightThroughRows, List.zipWith_cons_cons] at *
    rw [h q (List.mem_cons_self q rest), ih]

/-! ### Shape arithmetic of the convolutional pipeline

`nn.Conv2d` with kernel `k`, stride `s`, padding `p` (dilation 1) maps a
spatial size `w` to `(w + 2p − k) ⌊/⌋ s + 1`; `nn.ConvTranspose2d` maps it
to `(w − 1)·s + k − 2p` (output_padding 0). -/

def convOutDim (w k s p : Nat) : Nat := (w + 2 * p - k) / s + 1

def convTOutDim (w k s p : Nat) : Nat := (w - 1) * s + k - 2 * p

/-- Shape of a 4-dimensional tensor `(batch, channels, height, width)`. -/
structure Shape4 where
  batch : Nat
  channels : Nat
  height : Nat
  width : Nat
deriving DecidableEq

/-- Shape action of `nn.Conv2d` with `outC` output channels. -/
def conv2dShape (outC k s p : Nat) (sh : Shape4) : Shape4 :=
  ⟨sh.batch, outC, convOutDim sh.height k s p, convOutDim sh.width k s p⟩

/-- Shape action of `nn.ConvTranspose2d` with `outC` output channels. -/
def convT2dShape (outC k s p : Nat) (sh : Shape4) : Shape4 :=
  ⟨sh.batch, outC, convTOutDim sh.height k s p, convTOutDim sh.width k s p⟩

/-- Shape action of `Residual` (lines 61–76): ReLU preserves shape, then
Conv2d(in→Rh, 3×3, stride 1, padding 1), ReLU, Conv2d(Rh→numHiddens, 1×1,
stride 1, padding 0); the skip addition `x + self._block(x)` requires the
two operands to share a shape and returns it, so the output shape is the
block's output shape. -/
def residualShape (numHiddens numResidualHiddens : Nat) (sh : Shape4) : Shape4 :=
  conv2dShape numHiddens 1 1 0 (conv2dShape numResidualHiddens 3 1 1 sh)

/-- Shape action of `Encoder.forward` (lines 100–106): two stride-2 4×4
convolutions with padding 1 (channels `numHiddens/2` then `numHiddens`),
then two residual blocks. -/
def encoderShape (numHiddens numResidualHiddens : Nat) (sh : Shape4) : Shape4 :=
  residualShape numHiddens numResidualHiddens
    (residualShape numHiddens numResidualHiddens
      (conv2dShape numHiddens 4 2 1 (conv2dShape (numHiddens / 2) 4 2 1 sh)))

/-- Shape action of `Decoder.forward` (lines 134–141): Conv2d 3×3 stride 1
padding 1 to `numHiddens` channels, two residual blocks, then two stride-2
4×4 transposed convolutions with padding 1 (channels `numHiddens/2`, then a
single output channel). -/
def decoderShape (numHiddens numResidualHiddens : Nat) (sh : Shape4) : Shape4 :=
  convT2dShape 1 4 2 1
    (convT2dShape (numHiddens / 2) 4 2 1
      (residualShape numHiddens numResidualHiddens
        (residualShape numHiddens numResidualHiddens
          (conv2dShape numHiddens 3 1 1 sh))))

/-- Shape action of `VectorQuantizer.forward`: `permute(0,2,3,1)`,
`view(-1, D)`, the matmul result is `view`ed back to `input_shape` and
`permute(0,3,1,2)`d back (lines 30–58), so the quantized grid keeps the
input's shape. -/
def vqShape (sh : Shape4) : Shape4 := sh

/-- Shape action of `VQVAE.forward` (lines 162–168): encoder, 1×1
`pre_vq_conv` to `embeddingDim` channels, quantizer, decoder. -/
def vqvaeShape (numHiddens numResidualHiddens embeddingDim : Nat) (sh : Shape4) : Shape4 :=
  decoderShape numHiddens numResidualHiddens
    (vqShape (conv2dShape embeddingDim 1 1 0 (encoderShape numHiddens numResidualHiddens sh)))

/-! ### Value-level semantics of the stride-1 convolutions in `Residual` -/

/-- A channels×height×width grid of rationals, total in each index. -/
abbrev Grid := Nat → Nat → Nat → ℚ

/-- The `ReLU` function on one scalar. -/
def relu (x : ℚ) : ℚ := max x 0

/-- Embeds `nn.ReLU` applied pointwise to a grid. -/
def reluGrid (g : Grid) : Grid := fun c i j => relu (g c i j)

/-- Zero padding of an `H×W` grid by `p` on each side. -/
def padded (H W p : Nat) (g : Grid) (c i j : Nat) : ℚ :=
  if p ≤ i ∧ i < H + p ∧ p ≤ j ∧ j < W + p then g c (i - p) (j - p) else 0

/-- Embeds `nn.Conv2d` with stride 1: `Cin` input channels, square kernel `k`,
padding `p`, on an `H×W` grid.  Output channel `o` at `(i, j)` is the bias
plus the windowed sum of products with the kernel. -/
def conv2d (Cin k p H W : Nat) (weight : Nat → Nat → Nat → Nat → ℚ) (bias : Nat → ℚ)
    (g : Grid) : Grid :=
  fun o i j =>
    bias o + ∑ c ∈ Finset.range Cin, ∑ a ∈ Finset.range k, ∑ b ∈ Finset.range k,
      weight o c a b * padded H W p g c (i + a) (j + b)

/-- Embeds `nn.Sequential`: apply the layers left to right. -/
def seqApply (fs : List (Grid → Grid)) (x : Grid) : Grid :=
  fs.foldl (fun a f => f a) x

/-- Embeds `Residual._block` (lines 64–73): `Sequential(ReLU, Conv2d(C→Rh, 3×3,
stride 1, padding 1, bias=False), ReLU, Conv2d(Rh→C, 1×1, stride 1,
bias=False))`.  `bias=False` is the zero bias function. -/
def residualBlock (C Rh H W : Nat) (w1 w2 : Nat → Nat → Nat → Nat → ℚ) : Grid → Grid :=
  seqApply [reluGrid, conv2d C 3 1 H W w1 (fun _ => 0),
            reluGrid, conv2d Rh 1 0 H W w2 (fun _ => 0)]

/-- Embeds `Residual.forward` (lines 75–76): `x + self._block(x)`. -/
def residualForward (C Rh H W : Nat) (w1 w2 : Nat → Nat → Nat → Nat → ℚ) (x : Grid) : Grid :=
  fun c i j => x c i j + residualBlock C Rh H W w1 w2 x c i j

/-! ### Construction of the `VectorQuantizer` module -/

/-- The state a successfully constructed `VectorQuantizer` holds (the
codebook weights themselves are the random `uniform_` draw and are left
outside this configuration record). -/
structure VQConfig where
  numEmbeddings : Nat
  embeddingDim : Nat
  commitmentLoss : ℚ
deriving DecidableEq

/-- Embeds `VectorQuantizer.__init__` (lines 18–26) with the construction-time
failures of the underlying runtime: `nn.Embedding(K, D)` allocates a
`(K, D)` tensor, which raises on a negative dimension, and
`uniform_(-1 / K, 1 / K)` raises Python's `ZeroDivisionError` when
`K = 0`.  No other validation exists in the constructor; in particular
`D = 0` allocates an empty `(K, 0)` weight and succeeds. -/
def vqInit (K D : Int) (beta : ℚ) : Except String VQConfig :=
  if K < 0 ∨ D < 0 then Except.error "negative dimension"
  else if K = 0 then Except.error "division by zero"
  else Except.ok ⟨K.toNat, D.toNat, beta⟩

theorem vqInit_error_iff (K D : Int) (beta : ℚ) :
    (∃ e, vqInit K D beta = Except.error e) ↔ (K ≤ 0 ∨ D < 0) := by
  unfold vqInit
  split_ifs with h1 h2
  · simp only [Except.error.injEq, exists_eq']
    constructor
    · intro _; omega
    · intro _; trivial
  · simp only [Except.error.injEq, exists_eq']
    constructor
    · intro _; omega
    · intro _; trivial
  · constructor
    · rintro ⟨e, he⟩
      exact absurd he (by simp)
    · intro h
      omega

theorem listMin_lt_getD_of_lt_argminList :
    ∀ (l : List ℚ) (k : Nat), k < argminList l → listMin l < l.getD k 0
  | [], k, hk => by simp [argminList] at hk
  | [x], k, hk => by simp [argminList] at hk
  | x :: y :: ys, k, hk => by
    by_cases h : x ≤ listMin (y :: ys)
    · simp [argminList, h] at hk
    · have hlt : listMin (y :: ys) < x := not_le.mp h
      have hmin : listMin (x :: y :: ys) = listMin (y :: ys) := by
        simp [listMin_cons, min_eq_right hlt.le]
      cases k with
      | zero => simpa [hmin] using hlt
      | succ k =>
        have hk' : k < argminList (y :: ys) := by
          simp only [argminList, h, if_false] at hk
          omega
        have ih := listMin_lt_getD_of_lt_argminList (y :: ys) k hk'
        simpa [hmin] using ih

/-! ### Expanded distance vs. squared Euclidean distance -/

theorem sqNorm_cons (a : ℚ) (as : List ℚ) : sqNorm (a :: as) = a ^ 2 + sqNorm as := by
  simp [sqNorm]

theorem dot_cons (a b : ℚ) (as bs : List ℚ) :
    dot (a :: as) (b :: bs) = a * b + dot as bs := by
  simp [dot]

theorem sqDist_cons (a b : ℚ) (as bs : List ℚ) :
    sqDist (a :: as) (b :: bs) = (a - b) ^ 2 + sqDist as bs := by
  simp [sqDist]

theorem distExpanded_eq_sqDist :
    ∀ (q e : Vec), q.length = e.length → distExpanded q e = sqDist q e
  | [], [], _ => by simp [distExpanded, sqDist, sqNorm, dot]
  | [], _ :: _, h => by simp at h
  | _ :: _, [], h => by simp at h
  | a :: as, b :: bs, h => by
    have ih := distExpanded_eq_sqDist as bs (by simpa using h)
    simp only [distExpanded, sqNorm_cons, dot_cons, sqDist_cons] at *
    linear_combination ih

/-! ### Scatter rows and one-hot rows -/

theorem length_scatterRow (K idx : Nat) : (scatterRow K idx).length = K := by
  simp [scatterRow]

theorem scatterRow_eq_oneHotRow (K idx : Nat) : scatterRow K idx = oneHotRow K idx := by
  apply List.ext_getElem
  · simp [scatterRow, oneHotRow]
  · intro i h1 h2
    simp only [scatterRow, oneHotRow, List.getElem_set, List.getElem_map,
      List.getElem_range, List.getElem_replicate]
    by_cases h : idx = i
    · simp [h]
    · simp [h, Ne.symm h]

theorem scatterRow_decomp : ∀ (K idx : Nat), idx < K →
    scatterRow K idx = List.replicate idx (0 : ℚ) ++ 1 :: List.replicate (K - idx - 1) 0
  | K + 1, 0, _ => by simp [scatterRow, List.replicate_succ]
  | K + 1, idx + 1, h => by
    have ih := scatterRow_decomp K idx (Nat.lt_of_succ_lt_succ h)
    simp only [scatterRow, List.replicate_succ, List.set_cons_succ] at *
    simp [ih]

theorem count_one_scatterRow (K idx : Nat) (h : idx < K) :
    (scatterRow K idx).count 1 = 1 := by
  rw [scatterRow_decomp K idx h]
  simp [List.count_append, List.count_replicate, List.count_cons]

theorem getD_scatterRow_self (K idx : Nat) (h : idx < K) :
    (scatterRow K idx).getD idx 0 = 1 := by
  rw [List.getD_eq_getElem _ _ (by simpa [length_scatterRow] using h)]
  simp [scatterRow, List.getElem_set]

theorem getD_scatterRow_ne (K idx j : Nat) (hj : j < K) (hne : j ≠ idx) :
    (scatterRow K idx).getD j 0 = 0 := by
  rw [List.getD_eq_getElem _ _ (by simpa [length_scatterRow] using hj)]
  simp [scatterRow, List.getElem_set, Ne.symm hne]

theorem rowDistances_length (codebook : List Vec) (q : Vec) :
    (rowDistances codebook q).length = codebook.length := by
  simp [rowDistances]

theorem rowDistances_ne_nil (codebook : List Vec) (q : Vec) (hne : codebook ≠ []) :
    rowDistances codebook q ≠ [] := by
  cases codebook with
  | nil => exact absurd rfl hne
  | cons e rest => simp [rowDistances]

theorem rowDistances_getD (codebook : List Vec) (q : Vec) (k : Nat)
    (hk : k < codebook.length) (hdim : ∀ e ∈ codebook, e.length = q.length) :
    (rowDistances codebook q).getD k 0 = sqDist q (codebook.getD k []) := by
  rw [List.getD_eq_getElem _ _ (by simpa [rowDistances_length] using hk),
    List.getD_eq_getElem _ _ hk]
  simp only [rowDistances, List.getElem_map]
  exact distExpanded_eq_sqDist q _ ((hdim _ (List.getElem_mem hk)).symm)

theorem assignmentOf_lt (codebook : List Vec) (q : Vec) (hne : codebook ≠ []) :
    assignmentOf codebook q < codebook.length := by
  have h := argminList_lt (rowDistances codebook q) (rowDistances_ne_nil codebook q hne)
  rw [rowDistances_length] at h
  exact h

/-! ## Claim theorems -/

/-- C1: for every Feature Grid input (modelled at the flattened `N×D`
level), the straight-through output of `VectorQuantizer.forward`, computed
as `inputs + (quantized - inputs).detach()` on line 54, has forward numeric
value exactly equal to the Quantized Grid (the codebook vectors gathered by
the Assignment); `detach` only alters gradient flow, not the value. -/
theorem C1_straight_through_value (D : Nat) (flat codebook : List Vec)
    (hflat : ∀ q ∈ flat, q.length = D) :
    straightThroughRows flat (quantizedOf D flat codebook) = quantizedOf D flat codebook := by
  rw [quantizedOf_eq_map]
  apply straightThroughRows_map
  intro q hq
  exact straightThrough_eq q _ (by rw [hflat q hq, length_matVec])

theorem C1_witness :
    (∀ q ∈ [[(2 : ℚ)]], q.length = 1)
      ∧ straightThroughRows [[(2 : ℚ)]] (quantizedOf 1 [[(2 : ℚ)]] [[(0 : ℚ)]])
          = quantizedOf 1 [[(2 : ℚ)]] [[(0 : ℚ)]] :=
  ⟨by simp, C1_straight_through_value 1 [[(2 : ℚ)]] [[(0 : ℚ)]] (by simp)⟩

/-- C2: the Assignment of a query is the index of the codebook row
minimizing squared Euclidean distance, ties broken by the lowest minimal
index (`torch.argmin` returns the first minimal index); and on the
`K = 4, D = 2` codebook `[[0,0],[10,0],[0,10],[10,10]]` the query `[1,1]`
is assigned `0` and the query `[9,9]` is assigned `3`. -/
theorem C2_assignment_nearest (codebook : List Vec) (q : Vec)
    (hne : codebook ≠ []) (hdim : ∀ e ∈ codebook, e.length = q.length) :
    (assignmentOf codebook q < codebook.length
      ∧ (∀ k, k < codebook.length →
          sqDist q (codebook.getD (assignmentOf codebook q) [])
            ≤ sqDist q (codebook.getD k []))
      ∧ (∀ k, k < assignmentOf codebook q →
          sqDist q (codebook.getD (assignmentOf codebook q) [])
            < sqDist q (codebook.getD k [])))
    ∧ assignmentOf [[(0 : ℚ), 0], [10, 0], [0, 10], [10, 10]] [1, 1] = 0
    ∧ assignmentOf [[(0 : ℚ), 0], [10, 0], [0, 10], [10, 10]] [9, 9] = 3 := by
  have hrd := rowDistances_ne_nil codebook q hne
  have ha := assignmentOf_lt codebook q hne
  have hval : (rowDistances codebook q).getD (assignmentOf codebook q) 0
      = listMin (rowDistances codebook q) := getD_argminList _ hrd
  have hbest : sqDist q (codebook.getD (assignmentOf codebook q) [])
      = listMin (rowDistances codebook q) := by
    rw [← rowDistances_getD codebook q _ ha hdim]
    exact hval
  refine ⟨⟨ha, ?_, ?_⟩, ?_, ?_⟩
  · intro k hk
    rw [hbest, ← rowDistances_getD codebook q k hk hdim]
    exact listMin_le_getD _ k (by rw [rowDistances_length]; exact hk)
  · intro k hk
    rw [hbest, ← rowDistances_getD codebook q k (hk.trans ha) hdim]
    exact listMin_lt_getD_of_lt_argminList _ k hk
  · norm_num [assignmentOf, rowDistances, distExpanded, sqNorm, dot, argminList,
      listMin, min_def]
  · norm_num [assignmentOf, rowDistances, distExpanded, sqNorm, dot, argminList,
      listMin, min_def]

theorem C2_witness :
    ([[(0 : ℚ)], [1]] ≠ ([] : List Vec))
      ∧ (∀ e ∈ [[(0 : ℚ)], [1]], e.length = [(0 : ℚ)].length)
      ∧ ((assignmentOf [[(0 : ℚ)], [1]] [(0 : ℚ)] < [[(0 : ℚ)], [1]].length
          ∧ (∀ k, k < [[(0 : ℚ)], [1]].length →
              sqDist [(0 : ℚ)]
                  ([[(0 : ℚ)], [1]].getD (assignmentOf [[(0 : ℚ)], [1]] [(0 : ℚ)]) [])
                ≤ sqDist [(0 : ℚ)] ([[(0 : ℚ)], [1]].getD k []))
          ∧ (∀ k, k < assignmentOf [[(0 : ℚ)], [1]] [(0 : ℚ)] →
              sqDist [(0 : ℚ)]
                  ([[(0 : ℚ)], [1]].getD (assignmentOf [[(0 : ℚ)], [1]] [(0 : ℚ)]) [])
                < sqDist [(0 : ℚ)] ([[(0 : ℚ)], [1]].getD k [])))
        ∧ assignmentOf [[(0 : ℚ), 0], [10, 0], [0, 10], [10, 10]] [1, 1] = 0
        ∧ assignmentOf [[(0 : ℚ), 0], [10, 0], [0, 10], [10, 10]] [9, 9] = 3) :=
  ⟨by simp, by simp, C2_assignment_nearest [[(0 : ℚ)], [1]] [(0 : ℚ)] (by simp) (by simp)⟩

/-- C3: with a non-empty codebook of size `K`, every Assignment index
produced on line 42 lies in `[0, K)`, and the corresponding row of the
One-Hot Encoding built on lines 43–44 contains exactly one `1`, located at
column `Assignment[i]`, with all other entries `0`. -/
theorem C3_assignment_onehot (flat codebook : List Vec) (hne : codebook ≠ [])
    (i : Nat) (hi : i < flat.length) :
    (encodingIndicesOf flat codebook).getD i 0 < codebook.length
      ∧ ((encodingsOf flat codebook).getD i []).count 1 = 1
      ∧ ((encodingsOf flat codebook).getD i []).getD
          ((encodingIndicesOf flat codebook).getD i 0) 0 = 1
      ∧ (∀ j, j < codebook.length → j ≠ (encodingIndicesOf flat codebook).getD i 0 →
          ((encodingsOf flat codebook).getD i []).getD j 0 = 0) := by
  have hidx : (encodingIndicesOf flat codebook).getD i 0
      = assignmentOf codebook (flat.getD i []) := by
    rw [encodingIndicesOf_eq_map,
      List.getD_eq_getElem _ _ (by simpa using hi),
      List.getD_eq_getElem _ _ hi]
    simp [List.getElem_map]
  have henc : (encodingsOf flat codebook).getD i []
      = scatterRow codebook.length (assignmentOf codebook (flat.getD i [])) := by
    rw [encodingsOf_eq_map,
      List.getD_eq_getElem _ _ (by simpa using hi),
      List.getD_eq_getElem _ _ hi]
    simp [List.getElem_map]
  have ha := assignmentOf_lt codebook (flat.getD i []) hne
  rw [hidx, henc]
  exact ⟨ha, count_one_scatterRow _ _ ha, getD_scatterRow_self _ _ ha,
    fun j hj hne' => getD_scatterRow_ne _ _ j hj hne'⟩

theorem C3_witness :
    ([[(1 : ℚ)]] ≠ ([] : List Vec))
      ∧ 0 < [[(0 : ℚ)]].length
      ∧ ((encodingIndicesOf [[(0 : ℚ)]] [[(1 : ℚ)]]).getD 0 0 < [[(1 : ℚ)]].length
          ∧ ((encodingsOf [[(0 : ℚ)]] [[(1 : ℚ)]]).getD 0 []).count 1 = 1
          ∧ ((encodingsOf [[(0 : ℚ)]] [[(1 : ℚ)]]).getD 0 []).getD
              ((encodingIndicesOf [[(0 : ℚ)]] [[(1 : ℚ)]]).getD 0 0) 0 = 1
          ∧ (∀ j, j < [[(1 : ℚ)]].length →
              j ≠ (encodingIndicesOf [[(0 : ℚ)]] [[(1 : ℚ)]]).getD 0 0 →
              ((encodingsOf [[(0 : ℚ)]] [[(1 : ℚ)]]).getD 0 []).getD j 0 = 0)) :=
  ⟨by simp, by simp, C3_assignment_onehot [[(0 : ℚ)]] [[(1 : ℚ)]] (by simp) 0 (by simp)⟩

/-- C4: the quantization loss of lines 50–52 equals
`q_latent_loss + β · e_latent_loss`, where `e_latent_loss` is the MSE
between the detached Quantized Grid and the Feature Grid and
`q_latent_loss` the MSE between the Quantized Grid and the detached
Feature Grid; `e_latent_loss` is non-negative, and for `β ≥ 0` the total
quantization loss is non-negative. -/
theorem C4_loss_formula_nonneg (beta : ℚ) (quantized inputs : List ℚ)
    (hbeta : 0 ≤ beta) :
    vqLoss beta quantized inputs
        = qLatentLoss quantized inputs + beta * eLatentLoss quantized inputs
      ∧ 0 ≤ eLatentLoss quantized inputs
      ∧ 0 ≤ vqLoss beta quantized inputs := by
  refine ⟨rfl, ?_, ?_⟩
  · rw [eLatentLoss_eq_mseLoss]
    exact mseLoss_nonneg quantized inputs
  · rw [vqLoss, eLatentLoss_eq_mseLoss, qLatentLoss_eq_mseLoss]
    have h := mseLoss_nonneg quantized inputs
    have := mul_nonneg hbeta h
    linarith

theorem C4_witness :
    (0 : ℚ) ≤ 1
      ∧ (vqLoss 1 [(2 : ℚ)] [(1 : ℚ)]
            = qLatentLoss [(2 : ℚ)] [(1 : ℚ)] + 1 * eLatentLoss [(2 : ℚ)] [(1 : ℚ)]
          ∧ 0 ≤ eLatentLoss [(2 : ℚ)] [(1 : ℚ)]
          ∧ 0 ≤ vqLoss 1 [(2 : ℚ)] [(1 : ℚ)]) :=
  ⟨by norm_num, C4_loss_formula_nonneg 1 [(2 : ℚ)] [(1 : ℚ)] (by norm_num)⟩

/-- C5: each entry of the `N×K` distance matrix, computed on lines 37–39 by
the expanded form `‖q‖² + ‖e‖² − 2·q·e`, equals the squared Euclidean
distance `‖q − e‖²` in exact arithmetic. -/
theorem C5_expanded_distance (q e : Vec) (h : q.length = e.length) :
    distExpanded q e = sqDist q e :=
  distExpanded_eq_sqDist q e h

theorem C5_witness :
    [(1 : ℚ), 2].length = [(3 : ℚ), 5].length
      ∧ distExpanded [(1 : ℚ), 2] [(3 : ℚ), 5] = sqDist [(1 : ℚ), 2] [(3 : ℚ), 5] :=
  ⟨rfl, C5_expanded_distance [(1 : ℚ), 2] [(3 : ℚ), 5] rfl⟩

/-- C6: row `i` of the matrix product One-Hot · Codebook (line 47) equals
the codebook row at index `Assignment[i]` — the matmul gather is direct row
selection — and the in-place scatter construction of the One-Hot row
(lines 43–44) equals the pure construction that puts a `1` at column
`Assignment[i]` of a zero row and `0` elsewhere. -/
theorem C6_gather_and_scatter (D : Nat) (codebook : List Vec) (idx : Nat)
    (h : idx < codebook.length) (hlen : (codebook.getD idx []).length = D) :
    matVec D (scatterRow codebook.length idx) codebook = codebook.getD idx []
      ∧ ∀ K i : Nat, scatterRow K i = oneHotRow K i :=
  ⟨matVec_scatterRow D codebook idx h hlen, fun K i => scatterRow_eq_oneHotRow K i⟩

theorem C6_witness :
    0 < [[(5 : ℚ)]].length
      ∧ ([[(5 : ℚ)]].getD 0 []).length = 1
      ∧ (matVec 1 (scatterRow [[(5 : ℚ)]].length 0) [[(5 : ℚ)]] = [[(5 : ℚ)]].getD 0 []
          ∧ ∀ K i : Nat, scatterRow K i = oneHotRow K i) :=
  ⟨by simp, by simp, C6_gather_and_scatter 1 [[(5 : ℚ)]] 0 (by simp) (by simp)⟩

/-- C7: for every input batch of shape `(B, 1, H, W)` with `H` and `W`
divisible by `4` (and positive, as any image is — a zero-sized spatial
dimension makes the convolutions raise instead of returning), the
reconstruction of `VQVAE.forward` has shape exactly `(B, 1, H, W)`: the
encoder's two stride-2 4×4 convolutions with padding 1 and the decoder's
two stride-2 4×4 transposed convolutions with padding 1 are exact spatial
inverses, and the final transposed convolution yields one channel. -/
theorem C7_roundtrip_shape (numHiddens numResidualHiddens embeddingDim B H W : Nat)
    (hH : 0 < H) (hW : 0 < W) (h4H : 4 ∣ H) (h4W : 4 ∣ W) :
    vqvaeShape numHiddens numResidualHiddens embeddingDim ⟨B, 1, H, W⟩ = ⟨B, 1, H, W⟩ := by
  obtain ⟨m, rfl⟩ := h4H
  obtain ⟨n, rfl⟩ := h4W
  simp only [vqvaeShape, decoderShape, vqShape, encoderShape, residualShape,
    conv2dShape, convT2dShape, convOutDim, convTOutDim, Shape4.mk.injEq]
  refine ⟨trivial, trivial, ?_, ?_⟩ <;> omega

theorem C7_witness :
    0 < 4 ∧ 0 < 8 ∧ 4 ∣ 4 ∧ 4 ∣ 8
      ∧ vqvaeShape 128 32 64 ⟨2, 1, 4, 8⟩ = ⟨2, 1, 4, 8⟩ :=
  ⟨by decide, by decide, by decide, by decide,
    C7_roundtrip_shape 128 32 64 2 4 8 (by decide) (by decide) (by decide) (by decide)⟩

/-- C8: for every input grid with `C` channels (positive spatial sizes),
the `Residual` output equals `x + Conv1x1(ReLU(Conv3x3(ReLU(x))))` with
both convolutions bias-free (lines 61–76), and the output shape equals the
input shape. -/
theorem C8_residual_forward (C Rh B H W : Nat)
    (w1 w2 : Nat → Nat → Nat → Nat → ℚ) (x : Grid) (hH : 0 < H) (hW : 0 < W) :
    (∀ c i j, residualForward C Rh H W w1 w2 x c i j
        = x c i j + conv2d Rh 1 0 H W w2 (fun _ => 0)
            (reluGrid (conv2d C 3 1 H W w1 (fun _ => 0) (reluGrid x))) c i j)
      ∧ residualShape C Rh ⟨B, C, H, W⟩ = ⟨B, C, H, W⟩ := by
  constructor
  · intro c i j
    rfl
  · simp only [residualShape, conv2dShape, convOutDim, Shape4.mk.injEq]
    refine ⟨trivial, trivial, ?_, ?_⟩ <;> omega

theorem C8_witness :
    0 < 1
      ∧ ((∀ c i j, residualForward 1 1 1 1 (fun _ _ _ _ => 1) (fun _ _ _ _ => 1)
              (fun _ _ _ => 1) c i j
            = (fun _ _ _ => (1 : ℚ)) c i j
              + conv2d 1 1 0 1 1 (fun _ _ _ _ => 1) (fun _ => 0)
                  (reluGrid (conv2d 1 3 1 1 1 (fun _ _ _ _ => 1) (fun _ => 0)
                    (reluGrid (fun _ _ _ => 1)))) c i j)
          ∧ residualShape 1 1 ⟨1, 1, 1, 1⟩ = ⟨1, 1, 1, 1⟩) :=
  ⟨Nat.one_pos,
    C8_residual_forward 1 1 1 1 1 (fun _ _ _ _ => 1) (fun _ _ _ _ => 1)
      (fun _ _ _ => 1) Nat.one_pos Nat.one_pos⟩

/-- C9 (counterexample): `embedding_dim = 0` is a degenerate configuration
(`D ≤ 0`) whose construction nevertheless succeeds — `nn.Embedding(512, 0)`
allocates an empty weight and `uniform_(-1/512, 1/512)` runs on it without
error — refuting the claim that every `K ≤ 0` or `D ≤ 0` fails at
construction. -/
theorem C9_counterexample :
    (0 : Int) ≤ 0 ∧ vqInit 512 0 (1 / 4) = Except.ok ⟨512, 0, 1 / 4⟩ :=
  ⟨le_refl 0, rfl⟩

/-- C9 (amended): the construction of `VectorQuantizer` fails exactly when
`num_embeddings K ≤ 0` (negative-dimension error for `K < 0`, Python
`ZeroDivisionError` in `-1 / K` for `K = 0`) or `embedding_dim D < 0`
(negative-dimension error); `D = 0` with `K > 0` constructs successfully. -/
theorem C9_construction_failure (K D : Int) (beta : ℚ) :
    (∃ e, vqInit K D beta = Except.error e) ↔ (K ≤ 0 ∨ D < 0) :=
  vqInit_error_iff K D beta

/-- C10: with `detach` value-preserving, the forward values of
`e_latent_loss` and `q_latent_loss` (lines 50–51) coincide, so the
quantization loss equals `(1 + β)` times the MSE between the Quantized
Grid and the Feature Grid. -/
theorem C10_loss_collapse (beta : ℚ) (quantized inputs : List ℚ) :
    eLatentLoss quantized inputs = qLatentLoss quantized inputs
      ∧ vqLoss beta quantized inputs = (1 + beta) * mseLoss quantized inputs := by
  constructor
  · rw [eLatentLoss_eq_mseLoss, qLatentLoss_eq_mseLoss]
  · rw [vqLoss, eLatentLoss_eq_mseLoss, qLatentLoss_eq_mseLoss]
    ring

end VQ
